import Mathlib

/-!
Verification of the Baby Kyber reference implementation
(`RingPolynom.py`, `babyKyber.py`, `ind_cca.py`).

Conventions of the shallow embedding:
* Python integers are modelled as `ℤ`; Python's `%` on a positive modulus
  agrees with `Int.emod`, which `%` denotes on `ℤ`.
* The ring parameters `self.mod` and `self.n` of `RingPolynomOperations`
  are passed explicitly as `q n : ℕ` to every ring operation.
* Random draws (`secrets.randbelow`, `secrets.choice`) are modelled as
  explicit oracle functions supplying the drawn values; theorems quantify
  over all draw functions whose values lie in the support of the sampler.
* Python `for` loops that mutate a list or an accumulator are modelled as
  `List.foldl` over the corresponding index range; `xs[i]` reads become
  `List.getD i _` (all reads performed by the code are in bounds, so the
  default value is never consulted), and `xs[i] = v` writes become
  `List.set`.
-/

/-- `RingPolynomOperations.module` (RingPolynom.py, lines 48-73):
reduce a coefficient list modulo `X^n + 1` and modulo `q`. -/
def module (q n : ℕ) (poly : List ℤ) : List ℤ :=
  let reduced0 : List ℤ :=
    if n ≤ poly.length then poly.take n
    else poly ++ List.replicate (n - poly.length) 0
  let reduced1 : List ℤ := reduced0.take n
  let reduced2 : List ℤ :=
    (List.range' n (poly.length - n)).foldl
      (fun red i =>
        red.set (i % n) ((red.getD (i % n) 0 + (-1) ^ (i / n) * poly.getD i 0) % (q : ℤ)))
      reduced1
  reduced2.map (fun c => c % (q : ℤ))

/-- `RingPolynomOperations.add` (RingPolynom.py, lines 6-25):
zero-extend both operands to the longer length, add coefficient-wise
modulo `q`, then reduce with `module`. -/
def add (q n : ℕ) (p1 p2 : List ℤ) : List ℤ :=
  let maxLen := max p1.length p2.length
  let p1e := p1 ++ List.replicate (maxLen - p1.length) 0
  let p2e := p2 ++ List.replicate (maxLen - p2.length) 0
  module q n (List.zipWith (fun a b => (a + b) % (q : ℤ)) p1e p2e)

/-- `RingPolynomOperations.multiply` (RingPolynom.py, lines 27-46):
schoolbook convolution with a running reduction modulo `q`, followed by
`module`. -/
def multiply (q n : ℕ) (p1 p2 : List ℤ) : List ℤ :=
  let result0 : List ℤ := List.replicate (p1.length + p2.length - 1) 0
  let result :=
    (List.range p1.length).foldl
      (fun res i =>
        (List.range p2.length).foldl
          (fun res' j =>
            res'.set (i + j) ((res'.getD (i + j) 0 + p1.getD i 0 * p2.getD j 0) % (q : ℤ)))
          res)
      result0
  module q n result

/-- `BabyKyber.sample_uniform_polynomial` (babyKyber.py, lines 13-27):
`degree + 1` coefficients, each an output of `secrets.randbelow(q)`,
modelled by the draw oracle `draw`. -/
def sample_uniform_polynomial (q degree : ℕ) (draw : ℕ → ℤ) : List ℤ :=
  (List.range (degree + 1)).map draw

/-- `BabyKyber.sample_cbd_polynomial` (babyKyber.py, lines 29-53):
`n` centered-binomial coefficients `a i - b i` with `a i, b i` drawn
uniformly from `[0, eta]` (modelled by the oracles `a`, `b`), reduced
with `module`. -/
def sample_cbd_polynomial (q n eta : ℕ) (a b : ℕ → ℤ) : List ℤ :=
  module q n ((List.range n).map (fun i => a i - b i))

/-- `BabyKyber.key_gen` (babyKyber.py, lines 55-90).  `Ad i j` is the draw
oracle for the uniform entry `A[i][j]`; `sa i`/`sb i` and `ea i`/`eb i`
are the CBD draw oracles for `s[i]` and `e[i]`. -/
def key_gen (q n k eta : ℕ) (Ad : ℕ → ℕ → ℕ → ℤ) (sa sb ea eb : ℕ → ℕ → ℤ) :
    List (List (List ℤ)) × List (List ℤ) × List (List ℤ) :=
  let A := (List.range k).map
    (fun i => (List.range k).map (fun j => sample_uniform_polynomial q n (Ad i j)))
  let s := (List.range k).map (fun i => sample_cbd_polynomial q n eta (sa i) (sb i))
  let e := (List.range k).map (fun i => sample_cbd_polynomial q n eta (ea i) (eb i))
  let t := (List.range k).map (fun i =>
    add q n
      ((List.range k).foldl
        (fun rs j => add q n rs (multiply q n ((A.getD i []).getD j []) (s.getD j []))) [0])
      (e.getD i []))
  (A, t, s)

/-- `BabyKyber.encrypt` (babyKyber.py, lines 92-135).  `ra i`/`rb i`,
`e1a i`/`e1b i` and `e2a`/`e2b` are the CBD draw oracles for `r[i]`,
`e1[i]` and `e2`.  `math.ceil(q / 2)` for a nonnegative integer `q`
equals `(q + 1) / 2` in natural-number division. -/
def encrypt (q n k eta : ℕ) (A : List (List (List ℤ))) (t : List (List ℤ)) (m_bits : List ℤ)
    (ra rb e1a e1b : ℕ → ℕ → ℤ) (e2a e2b : ℕ → ℤ) : List (List ℤ) × List ℤ :=
  let r := (List.range k).map (fun i => sample_cbd_polynomial q n eta (ra i) (rb i))
  let e1 := (List.range k).map (fun i => sample_cbd_polynomial q n eta (e1a i) (e1b i))
  let e2 := sample_cbd_polynomial q n eta e2a e2b
  let AT := (List.range k).map (fun i => (List.range k).map (fun j => (A.getD j []).getD i []))
  let u := (List.range k).map (fun i =>
    add q n
      ((List.range k).foldl
        (fun rs j => add q n rs (multiply q n ((AT.getD i []).getD j []) (r.getD j []))) [0])
      (e1.getD i []))
  let v0 := (List.range k).foldl
    (fun acc i => add q n acc (multiply q n (t.getD i []) (r.getD i []))) e2
  let m_scaled := m_bits.map (fun c => c * (((q + 1) / 2 : ℕ) : ℤ))
  (u, add q n v0 m_scaled)

/-- The inner product `sTu = Σ_i u[i] · s[i]` accumulated from `[0]`
exactly as in `BabyKyber.decrypt` (babyKyber.py, lines 155-157). -/
def sTu (q n k : ℕ) (u s : List (List ℤ)) : List ℤ :=
  (List.range k).foldl
    (fun acc i => add q n acc (multiply q n (u.getD i []) (s.getD i []))) [0]

/-- `BabyKyber.decrypt` (babyKyber.py, lines 137-173). -/
def decrypt (q n k : ℕ) (c : List (List ℤ) × List ℤ) (s : List (List ℤ)) : List ℤ :=
  let u := c.1
  let v := c.2
  let decrypted := add q n v (multiply q n (sTu q n k u s) [-1])
  decrypted.map (fun coeff =>
    let cMod := coeff % (q : ℤ)
    let lowerBound := ((q / 2 : ℕ) : ℤ) - ((q / 4 : ℕ) : ℤ)
    let upperBound := ((q / 2 : ℕ) : ℤ) + ((q / 4 : ℕ) : ℤ)
    if lowerBound ≤ cMod ∧ cMod ≤ upperBound then 1 else 0)

/-- `decrypt_oracle` (ind_cca.py, lines 46-65): the oracle raises the
forbidden-query `ValueError` on the challenge ciphertext and otherwise
forwards to `decrypt`.  Raising is modelled with `Except.error`. -/
def decrypt_oracle (q n k : ℕ) (s : List (List ℤ)) (challenge c : List (List ℤ) × List ℤ) :
    Except String (List ℤ) :=
  if c = challenge then Except.error "Decryption of challenge ciphertext is forbidden!"
  else Except.ok (decrypt q n k c s)

/-- `BabyKyber.encrypt` with the Python raising behaviour made explicit:
for `q > 0` and `n > 0` the only operations in `encrypt` that can raise
are the subscripts `A[j][i]` (building the transpose, babyKyber.py line
115) and `t[i]` (line 130); every other step is total.  The code raises
iff one of those subscripts is out of bounds, i.e. iff `A` has fewer than
`k` rows, some of the first `k` rows of `A` has fewer than `k` entries,
or `t` has fewer than `k` entries. -/
def encryptE (q n k eta : ℕ) (A : List (List (List ℤ))) (t : List (List ℤ)) (m_bits : List ℤ)
    (ra rb e1a e1b : ℕ → ℕ → ℤ) (e2a e2b : ℕ → ℤ) : Except String (List (List ℤ) × List ℤ) :=
  if k ≤ A.length ∧ (∀ row ∈ A.take k, k ≤ row.length) ∧ k ≤ t.length then
    Except.ok (encrypt q n k eta A t m_bits ra rb e1a e1b e2a e2b)
  else Except.error "IndexError"

/-- `BabyKyber.decrypt` with the Python raising behaviour made explicit:
for `q > 0` and `n > 0` the only operations in `decrypt` that can raise
are the subscripts `u[i]` and `s[i]` (babyKyber.py line 157); the code
raises iff `u` or `s` has fewer than `k` entries. -/
def decryptE (q n k : ℕ) (c : List (List ℤ) × List ℤ) (s : List (List ℤ)) :
    Except String (List ℤ) :=
  if k ≤ c.1.length ∧ k ≤ s.length then Except.ok (decrypt q n k c s)
  else Except.error "IndexError"

/-- The reduction computation exactly as the specification words it: "take
the first n coefficients of poly as the accumulator (zero-padding to length
n if poly is shorter), then for every index i >= n add (-1)^(i div n) *
poly[i] into accumulator position i mod n, reducing modulo q at each
step."  There is no final normalization pass over the accumulator. -/
def moduleSpec (q n : ℕ) (poly : List ℤ) : List ℤ :=
  (List.range' n (poly.length - n)).foldl
    (fun acc i => acc.set (i % n) ((acc.getD (i % n) 0 + (-1) ^ (i / n) * poly.getD i 0) % (q:ℤ)))
    ((List.range n).map (fun i => poly.getD i 0))

/-- coefficient `c` of the negacyclic (mod `X^4 + 1`) product of two
length-4 coefficient vectors -/
def nc4 (x y : ℕ → ℤ) : ℕ → ℤ
  | 0 => x 0 * y 0 - (x 1 * y 3 + x 2 * y 2 + x 3 * y 1)
  | 1 => x 0 * y 1 + x 1 * y 0 - (x 2 * y 3 + x 3 * y 2)
  | 2 => x 0 * y 2 + x 1 * y 1 + x 2 * y 0 - x 3 * y 3
  | 3 => x 0 * y 3 + x 1 * y 2 + x 2 * y 1 + x 3 * y 0
  | _ + 4 => 0

/-- a raw centered-binomial value: the difference of the two draws -/
def cbdval (a b : ℕ → ℤ) (i : ℕ) : ℤ := a i - b i

/-- the length-5 uniform entry `A[i][j]` collapsed to a length-4 vector
modulo `X^4 + 1` (its fifth coefficient folds into position 0 with sign
`-1`) -/
def acolZ (a : ℕ → ℤ) : ℕ → ℤ := fun c => if c = 0 then a 0 - a 4 else a c

/-- integer value (before reduction) of coefficient `c` of `t[i] = (A s)_i + e_i` -/
def tInt (Ad : ℕ → ℕ → ℕ → ℤ) (sa sb ea eb : ℕ → ℕ → ℤ) (i c : ℕ) : ℤ :=
  nc4 (acolZ (Ad i 0)) (cbdval (sa 0) (sb 0)) c
  + nc4 (acolZ (Ad i 1)) (cbdval (sa 1) (sb 1)) c
  + cbdval (ea i) (eb i) c

/-- integer value (before reduction) of coefficient `c` of
`u[i] = (A^T r)_i + e1_i` -/
def uInt (Ad : ℕ → ℕ → ℕ → ℤ) (ra rb e1a e1b : ℕ → ℕ → ℤ) (i c : ℕ) : ℤ :=
  nc4 (acolZ (Ad 0 i)) (cbdval (ra 0) (rb 0)) c
  + nc4 (acolZ (Ad 1 i)) (cbdval (ra 1) (rb 1)) c
  + cbdval (e1a i) (e1b i) c

/-- the decryption noise `e·r + e2 - s·e1` of one Baby Kyber round trip,
at the level of the raw integer draws -/
def noiseC1 (sa sb ea eb ra rb e1a e1b : ℕ → ℕ → ℤ) (e2a e2b : ℕ → ℤ) (c : ℕ) : ℤ :=
  nc4 (cbdval (ea 0) (eb 0)) (cbdval (ra 0) (rb 0)) c
  + nc4 (cbdval (ea 1) (eb 1)) (cbdval (ra 1) (rb 1)) c
  + cbdval e2a e2b c
  - nc4 (cbdval (sa 0) (sb 0)) (cbdval (e1a 0) (e1b 0)) c
  - nc4 (cbdval (sa 1) (sb 1)) (cbdval (e1a 1) (e1b 1)) c

/-! ### Generic helper lemmas -/

theorem getD_replicate_zero (m i : ℕ) : (List.replicate m (0:ℤ)).getD i 0 = 0 := by
  induction m generalizing i with
  | zero => simp
  | succ m ih => cases i <;> simp [List.replicate_succ, ih]

theorem getD_append_pad (p : List ℤ) (m c : ℕ) :
    (p ++ List.replicate m (0:ℤ)).getD c 0 = p.getD c 0 := by
  rcases Nat.lt_or_ge c p.length with h | h
  · exact List.getD_append _ _ _ _ h
  · rw [List.getD_append_right _ _ _ _ h, List.getD_eq_default _ _ h, getD_replicate_zero]

theorem getD_map_zero (f : ℤ → ℤ) (hf : f 0 = 0) (l : List ℤ) (i : ℕ) :
    (l.map f).getD i 0 = f (l.getD i 0) := by
  induction l generalizing i with
  | nil => simpa using hf.symm
  | cons a t ih =>
    cases i with
    | zero => simp
    | succ i => simpa [List.getD_cons_succ] using ih i

theorem getD_map_emod (q : ℕ) (l : List ℤ) (i : ℕ) :
    (l.map (fun c => c % (q:ℤ))).getD i 0 = l.getD i 0 % (q:ℤ) :=
  getD_map_zero (fun c => c % (q:ℤ)) (Int.zero_emod _) l i

theorem getD_zipWith_emod (q : ℕ) (v w : List ℤ) (h : v.length = w.length) (c : ℕ) :
    (List.zipWith (fun a b => (a + b) % (q:ℤ)) v w).getD c 0
      = (v.getD c 0 + w.getD c 0) % (q:ℤ) := by
  induction v generalizing w c with
  | nil =>
    cases w with
    | nil => simp
    | cons b bt => simp at h
  | cons a t ih =>
    cases w with
    | nil => simp at h
    | cons b bt =>
      cases c with
      | zero => simp
      | succ c => simpa using ih bt (by simpa using h) c

theorem length_foldl_set (l : List ℕ) (init : List ℤ) (F : List ℤ → ℕ → ℤ) (G : ℕ → ℕ) :
    (l.foldl (fun red i => red.set (G i) (F red i)) init).length = init.length := by
  induction l generalizing init with
  | nil => rfl
  | cons a t ih => simp [ih]

theorem module_length (q n : ℕ) (p : List ℤ) : (module q n p).length = n := by
  unfold module
  rw [List.length_map, length_foldl_set]
  split
  · simp; omega
  · simp; omega

theorem mem_module_range (q n : ℕ) (hq : 0 < q) (p : List ℤ) :
    ∀ c ∈ module q n p, 0 ≤ c ∧ c < (q:ℤ) := by
  unfold module
  intro c hc
  rcases List.mem_map.mp hc with ⟨x, _, rfl⟩
  exact ⟨Int.emod_nonneg x (by exact_mod_cast hq.ne'), Int.emod_lt_of_pos x (by exact_mod_cast hq)⟩

theorem range'_len_zero (n : ℕ) : List.range' n 0 = [] := rfl

theorem module_getD_short (q n : ℕ) (p : List ℤ) (hp : p.length ≤ n) (c : ℕ) :
    (module q n p).getD c 0 = p.getD c 0 % (q:ℤ) := by
  simp only [module]
  rw [Nat.sub_eq_zero_of_le hp, range'_len_zero, List.foldl_nil]
  rcases Nat.lt_or_ge p.length n with h | h
  · rw [if_neg (by omega)]
    rw [List.take_of_length_le (by simp; omega)]
    rw [getD_map_emod, getD_append_pad]
  · have hlen : p.length = n := le_antisymm hp h
    rw [if_pos h, List.take_of_length_le hp, List.take_of_length_le hp, getD_map_emod]

theorem add_length (q n : ℕ) (v w : List ℤ) : (add q n v w).length = n := by
  unfold add
  exact module_length q n _

theorem multiply_length (q n : ℕ) (v w : List ℤ) : (multiply q n v w).length = n := by
  unfold multiply
  exact module_length q n _

theorem mem_add_range (q n : ℕ) (hq : 0 < q) (v w : List ℤ) :
    ∀ c ∈ add q n v w, 0 ≤ c ∧ c < (q:ℤ) := by
  unfold add
  exact mem_module_range q n hq _

theorem mem_multiply_range (q n : ℕ) (hq : 0 < q) (v w : List ℤ) :
    ∀ c ∈ multiply q n v w, 0 ≤ c ∧ c < (q:ℤ) := by
  unfold multiply
  exact mem_module_range q n hq _

theorem add_getD (q n : ℕ) (v w : List ℤ) (hv : v.length ≤ n) (hw : w.length ≤ n) (c : ℕ) :
    (add q n v w).getD c 0 = (v.getD c 0 + w.getD c 0) % (q:ℤ) := by
  unfold add
  have h1 : (v ++ List.replicate (max v.length w.length - v.length) (0:ℤ)).length
      = max v.length w.length := by
    simp only [List.length_append, List.length_replicate]; omega
  have h2 : (w ++ List.replicate (max v.length w.length - w.length) (0:ℤ)).length
      = max v.length w.length := by
    simp only [List.length_append, List.length_replicate]; omega
  rw [module_getD_short _ _ _ (by rw [List.length_zipWith, h1, h2]; omega)]
  rw [getD_zipWith_emod _ _ _ (by rw [h1, h2])]
  rw [getD_append_pad, getD_append_pad, Int.emod_emod_of_dvd _ dvd_rfl]

theorem set_append_length (l1 l2 : List ℤ) (x v : ℤ) :
    (l1 ++ x :: l2).set l1.length v = l1 ++ v :: l2 := by
  induction l1 with
  | nil => rfl
  | cons a t ih => simp [ih]

theorem getD_append_length (l1 l2 : List ℤ) (x : ℤ) :
    (l1 ++ x :: l2).getD l1.length 0 = x := by
  rw [List.getD_append_right _ _ _ _ le_rfl, Nat.sub_self]
  rfl

theorem set_append_len (l1 l2 : List ℤ) (x v : ℤ) (m : ℕ) (h : l1.length = m) :
    (l1 ++ x :: l2).set m v = l1 ++ v :: l2 := h ▸ set_append_length l1 l2 x v

theorem getD_append_len (l1 l2 : List ℤ) (x : ℤ) (m : ℕ) (h : l1.length = m) :
    (l1 ++ x :: l2).getD m 0 = x := h ▸ getD_append_length l1 l2 x

theorem foldl_set_tabulate (g : ℕ → ℤ → ℤ) (n : ℕ) :
    ∀ m, m ≤ n →
      (List.range m).foldl (fun res i => res.set i (g i (res.getD i 0)))
        (List.replicate n (0:ℤ))
      = (List.range m).map (fun i => g i 0) ++ List.replicate (n - m) 0 := by
  intro m
  induction m with
  | zero => intro _; simp
  | succ m ih =>
    intro hm
    rw [List.range_succ, List.foldl_append, ih (by omega), List.foldl_cons, List.foldl_nil]
    have hrep : List.replicate (n - m) (0:ℤ) = 0 :: List.replicate (n - (m + 1)) 0 := by
      have h2 : n - m = (n - (m + 1)) + 1 := by omega
      rw [h2, List.replicate_succ]
    have hlen : ((List.range m).map (fun i => g i 0)).length = m := by simp
    rw [hrep, getD_append_len _ _ _ _ hlen, set_append_len _ _ _ _ _ hlen]
    rw [List.map_append]
    simp

theorem foldl_fn_congr (f g : List ℤ → ℕ → List ℤ) (h : ∀ acc i, f acc i = g acc i)
    (l : List ℕ) (init : List ℤ) : l.foldl f init = l.foldl g init := by
  have hfg : f = g := funext fun acc => funext fun i => h acc i
  rw [hfg]

theorem map_getD_range (p : List ℤ) (f : ℤ → ℤ) :
    (List.range p.length).map (fun i => f (p.getD i 0)) = p.map f := by
  apply List.ext_getElem
  · simp
  · intro i h1 h2
    simp only [List.getElem_map, List.getElem_range]
    rw [List.getD_eq_getElem _ _ (by simpa using h1)]

/-- `multiply p [-1]` is the coefficient-wise negation of `p`, normalized
modulo `q`, whenever `p` has exactly `n` coefficients. -/
theorem multiply_negone (q n : ℕ) (p : List ℤ) (hp : p.length = n) :
    multiply q n p [-1] = p.map (fun c => (-c) % (q:ℤ)) := by
  simp only [multiply]
  rw [show (([-1] : List ℤ)).length = 1 from rfl, hp]
  rw [foldl_fn_congr _
    (fun res i => res.set i ((res.getD i 0 + p.getD i 0 * (-1)) % (q : ℤ)))
    (by
      intro acc i
      rw [show List.range 1 = [0] from rfl, List.foldl_cons, List.foldl_nil]
      norm_num [List.getD_cons_zero])]
  rw [Nat.add_sub_cancel,
    foldl_set_tabulate (fun i cur => (cur + p.getD i 0 * (-1)) % (q:ℤ)) n n le_rfl]
  rw [Nat.sub_self, List.replicate_zero, List.append_nil]
  apply List.ext_getElem
  · simp [module_length, hp]
  · intro i h1 h2
    rw [← List.getD_eq_getElem _ 0, ← List.getD_eq_getElem _ 0]
    rw [module_getD_short _ _ _ (by simp)]
    have hcongr : (List.range n).map (fun i => (0 + p.getD i 0 * (-1)) % (q:ℤ))
        = (List.range n).map (fun i => (-(p.getD i 0)) % (q:ℤ)) := by
      apply List.map_congr_left
      intro j _
      ring_nf
    rw [hcongr, ← hp, map_getD_range p (fun c => (-c) % (q:ℤ))]
    rw [getD_map_zero (fun c => (-c) % (q:ℤ)) (by simp) p i]
    exact Int.emod_emod_of_dvd _ dvd_rfl

theorem sTu_length (q n k : ℕ) (hk : 0 < k) (u s : List (List ℤ)) :
    (sTu q n k u s).length = n := by
  unfold sTu
  obtain ⟨m, rfl⟩ : ∃ m, k = m + 1 := ⟨k - 1, by omega⟩
  rw [List.range_succ, List.foldl_append, List.foldl_cons, List.foldl_nil]
  exact add_length q n _ _

theorem decrypt_length (q n k : ℕ) (c : List (List ℤ) × List ℤ) (s : List (List ℤ)) :
    (decrypt q n k c s).length = n := by
  unfold decrypt
  rw [List.length_map]
  exact add_length q n _ _

theorem decrypt_bits (q n k : ℕ) (c : List (List ℤ) × List ℤ) (s : List (List ℤ)) :
    ∀ b ∈ decrypt q n k c s, b = 0 ∨ b = 1 := by
  unfold decrypt
  intro b hb
  rcases List.mem_map.mp hb with ⟨x, _, rfl⟩
  dsimp only
  split
  · right; rfl
  · left; rfl

/-- Reduction is idempotent: a second `module` pass changes nothing. -/
theorem module_module (q n : ℕ) (p : List ℤ) :
    module q n (module q n p) = module q n p := by
  apply List.ext_getElem
  · simp [module_length]
  · intro i h1 h2
    rw [← List.getD_eq_getElem _ 0, ← List.getD_eq_getElem _ 0]
    rw [module_getD_short _ _ _ (le_of_eq (module_length q n p))]
    conv_lhs => rw [module]
    rw [getD_map_emod, Int.emod_emod_of_dvd _ dvd_rfl, ← getD_map_emod]
    rfl

theorem moduleSpec_init_eq (n : ℕ) (p : List ℤ) :
    List.take n (if n ≤ p.length then List.take n p else p ++ List.replicate (n - p.length) 0)
    = (List.range n).map (fun i => p.getD i 0) := by
  apply List.ext_getElem
  · split
    · simp; omega
    · simp; omega
  · intro i h1 h2
    have hin : i < n := by simpa using h2
    simp only [List.getElem_map, List.getElem_range]
    rw [List.getElem_take]
    split
    · rw [List.getElem_take, ← List.getD_eq_getElem _ 0]
    · rw [← List.getD_eq_getElem _ 0, getD_append_pad]

/-- `module` is `moduleSpec` followed by a final coefficient-wise reduction
modulo `q`. -/
theorem module_eq_moduleSpec_norm (q n : ℕ) (p : List ℤ) :
    module q n p = (moduleSpec q n p).map (fun c => c % (q:ℤ)) := by
  simp only [module, moduleSpec]
  rw [moduleSpec_init_eq]

theorem decrypt_getD_decode (q n k : ℕ) (hq : 0 < q) (hk : 0 < k)
    (u : List (List ℤ)) (v : List ℤ) (s : List (List ℤ)) (hv : v.length = n)
    (i : ℕ) (hi : i < n) :
    (decrypt q n k (u, v) s).getD i 0 =
      if ((q / 2 : ℕ) : ℤ) - ((q / 4 : ℕ) : ℤ)
            ≤ (v.getD i 0 - (sTu q n k u s).getD i 0) % (q:ℤ)
          ∧ (v.getD i 0 - (sTu q n k u s).getD i 0) % (q:ℤ)
            ≤ ((q / 2 : ℕ) : ℤ) + ((q / 4 : ℕ) : ℤ)
        then 1 else 0 := by
  have hW : (sTu q n k u s).length = n := sTu_length q n k hk u s
  have hlen : (add q n v (multiply q n (sTu q n k u s) [-1])).length = n :=
    add_length q n _ _
  have hd : (add q n v (multiply q n (sTu q n k u s) [-1])).getD i 0
      = (v.getD i 0 - (sTu q n k u s).getD i 0) % (q:ℤ) := by
    rw [add_getD q n _ _ (le_of_eq hv) (le_of_eq (multiply_length q n _ _)) i]
    rw [multiply_negone q n _ hW, getD_map_zero (fun c => (-c) % (q:ℤ)) (by simp)]
    rw [Int.add_emod, Int.emod_emod_of_dvd _ dvd_rfl, ← Int.add_emod, ← Int.sub_eq_add_neg]
  simp only [decrypt]
  rw [List.getD_eq_getElem _ _ (by rw [List.length_map, hlen]; exact hi)]
  rw [List.getElem_map, ← List.getD_eq_getElem _ 0, hd]
  rw [Int.emod_emod_of_dvd _ dvd_rfl]

/-! ### C1: round-trip correctness at q = 97, n = 4, k = 2, eta = 1 -/

theorem range1 : List.range 1 = [0] := rfl
theorem range2 : List.range 2 = [0, 1] := rfl
theorem range4 : List.range 4 = [0, 1, 2, 3] := rfl
theorem range5 : List.range 5 = [0, 1, 2, 3, 4] := rfl
theorem rangep40 : List.range' 4 0 = [] := rfl
theorem rangep43 : List.range' 4 3 = [4, 5, 6] := rfl
theorem rangep44 : List.range' 4 4 = [4, 5, 6, 7] := rfl

theorem intCast_emod_natCast (q : ℕ) (x : ℤ) : ((x % (q : ℤ) : ℤ) : ZMod q) = (x : ZMod q) :=
  (ZMod.intCast_eq_intCast_iff _ _ _).mpr (Int.emod_emod_of_dvd x dvd_rfl)

theorem intCast_emod97 (x : ℤ) : ((x % (97 : ℤ) : ℤ) : ZMod 97) = (x : ZMod 97) := by
  have h := intCast_emod_natCast 97 x
  norm_num at h
  exact h

theorem exists_len2 (l : List (List ℤ)) (h : l.length = 2) : ∃ x y, l = [x, y] := by
  rcases l with _ | ⟨x, l⟩
  · simp at h
  rcases l with _ | ⟨y, l⟩
  · simp at h
  rcases l with _ | ⟨z, l⟩
  · exact ⟨x, y, rfl⟩
  · simp at h

theorem exists_len4 (l : List ℤ) (h : l.length = 4) : ∃ a b c d, l = [a, b, c, d] := by
  rcases l with _ | ⟨a, l⟩
  · simp at h
  rcases l with _ | ⟨b, l⟩
  · simp at h
  rcases l with _ | ⟨c, l⟩
  · simp at h
  rcases l with _ | ⟨d, l⟩
  · simp at h
  rcases l with _ | ⟨e, l⟩
  · exact ⟨a, b, c, d, rfl⟩
  · simp at h

theorem keygen_s_eval (Ad : ℕ → ℕ → ℕ → ℤ) (sa sb ea eb : ℕ → ℕ → ℤ) :
    (key_gen 97 4 2 1 Ad sa sb ea eb).2.2
    = [[(sa 0 0 - sb 0 0) % 97, (sa 0 1 - sb 0 1) % 97,
        (sa 0 2 - sb 0 2) % 97, (sa 0 3 - sb 0 3) % 97],
       [(sa 1 0 - sb 1 0) % 97, (sa 1 1 - sb 1 1) % 97,
        (sa 1 2 - sb 1 2) % 97, (sa 1 3 - sb 1 3) % 97]] := by
  simp [key_gen, sample_cbd_polynomial, module, range2, range4, rangep40]


theorem getD_singleton_zero (c : ℕ) : (([0] : List ℤ)).getD c 0 = 0 := by
  cases c <;> simp

theorem cast_getD_map97 (l : List ℤ) (c : ℕ) :
    ((l.map (fun z : ℤ => (z : ZMod 97))).getD c 0) = ((l.getD c 0 : ℤ) : ZMod 97) := by
  induction l generalizing c with
  | nil => simp
  | cons a t ih =>
    cases c with
    | zero => simp
    | succ c => simpa [List.getD_cons_succ] using ih c

/-- structural shape of `t[i]` inside `key_gen`: an `add`-chain of two
`multiply` terms and the error polynomial -/
theorem keygen_t_row_struct (Ad : ℕ → ℕ → ℕ → ℤ) (sa sb ea eb : ℕ → ℕ → ℤ) (i : ℕ) :
    (key_gen 97 4 2 1 Ad sa sb ea eb).2.1.getD i []
    = if i < 2 then
        add 97 4
          (add 97 4
            (add 97 4 [0]
              (multiply 97 4 [Ad i 0 0, Ad i 0 1, Ad i 0 2, Ad i 0 3, Ad i 0 4]
                [(sa 0 0 - sb 0 0) % 97, (sa 0 1 - sb 0 1) % 97,
                 (sa 0 2 - sb 0 2) % 97, (sa 0 3 - sb 0 3) % 97]))
            (multiply 97 4 [Ad i 1 0, Ad i 1 1, Ad i 1 2, Ad i 1 3, Ad i 1 4]
              [(sa 1 0 - sb 1 0) % 97, (sa 1 1 - sb 1 1) % 97,
               (sa 1 2 - sb 1 2) % 97, (sa 1 3 - sb 1 3) % 97]))
          [(ea i 0 - eb i 0) % 97, (ea i 1 - eb i 1) % 97,
           (ea i 2 - eb i 2) % 97, (ea i 3 - eb i 3) % 97]
      else [] := by
  rcases i with _ | _ | i <;>
    simp [key_gen, sample_cbd_polynomial, sample_uniform_polynomial, module,
      range2, range4, range5, rangep40]

set_option maxHeartbeats 1000000 in
/-- cast of the product of a length-5 uniform entry with a length-4
polynomial: the negacyclic convolution of the collapsed entry -/
theorem mul54_map_cast (a b : ℕ → ℤ) :
    (multiply 97 4 [a 0, a 1, a 2, a 3, a 4] [b 0, b 1, b 2, b 3]).map (fun z : ℤ => (z : ZMod 97))
    = [((nc4 (acolZ a) b 0 : ℤ) : ZMod 97), ((nc4 (acolZ a) b 1 : ℤ) : ZMod 97),
       ((nc4 (acolZ a) b 2 : ℤ) : ZMod 97), ((nc4 (acolZ a) b 3 : ℤ) : ZMod 97)] := by
  simp [multiply, module, nc4, acolZ, range4, range5, rangep44]
  push_cast [intCast_emod97]
  refine ⟨by ring, by ring, by ring, by ring⟩

set_option maxHeartbeats 1000000 in
/-- cast of the product of two length-4 polynomials: the negacyclic
convolution -/
theorem mul44_map_cast (x b : ℕ → ℤ) :
    (multiply 97 4 [x 0, x 1, x 2, x 3] [b 0, b 1, b 2, b 3]).map (fun z : ℤ => (z : ZMod 97))
    = [((nc4 x b 0 : ℤ) : ZMod 97), ((nc4 x b 1 : ℤ) : ZMod 97),
       ((nc4 x b 2 : ℤ) : ZMod 97), ((nc4 x b 3 : ℤ) : ZMod 97)] := by
  simp [multiply, module, nc4, range4, rangep43]
  push_cast [intCast_emod97]
  refine ⟨by ring, by ring, by ring, by ring⟩

theorem mul54_getD_cast (a b : ℕ → ℤ) (c : ℕ) (hc : c < 4) :
    (((multiply 97 4 [a 0, a 1, a 2, a 3, a 4] [b 0, b 1, b 2, b 3]).getD c 0 : ℤ) : ZMod 97)
    = ((nc4 (acolZ a) b c : ℤ) : ZMod 97) := by
  rw [← cast_getD_map97, mul54_map_cast]
  interval_cases c <;> simp

theorem mul44_getD_cast_fn (x b : ℕ → ℤ) (c : ℕ) (hc : c < 4) :
    (((multiply 97 4 [x 0, x 1, x 2, x 3] [b 0, b 1, b 2, b 3]).getD c 0 : ℤ) : ZMod 97)
    = ((nc4 x b c : ℤ) : ZMod 97) := by
  rw [← cast_getD_map97, mul44_map_cast]
  interval_cases c <;> simp

/-- cast of the product of an arbitrary length-4 polynomial with a
length-4 polynomial given by a coefficient function -/
theorem mul44_getD_cast (X : List ℤ) (hX : X.length = 4) (b : ℕ → ℤ) (c : ℕ) (hc : c < 4) :
    (((multiply 97 4 X [b 0, b 1, b 2, b 3]).getD c 0 : ℤ) : ZMod 97)
    = ((nc4 (fun i => X.getD i 0) b c : ℤ) : ZMod 97) := by
  obtain ⟨x0, x1, x2, x3, rfl⟩ := exists_len4 X hX
  exact mul44_getD_cast_fn (fun i => (([x0, x1, x2, x3] : List ℤ)).getD i 0) b c hc

/-- cast of one coefficient of the chain `add (add (add B P) Q) E` -/
theorem chain4_getD_cast (B P Q E : List ℤ) (hB : B.length ≤ 4) (hP : P.length ≤ 4)
    (hQ : Q.length ≤ 4) (hE : E.length ≤ 4) (c : ℕ) :
    (((add 97 4 (add 97 4 (add 97 4 B P) Q) E).getD c 0 : ℤ) : ZMod 97)
    = ((B.getD c 0 : ℤ) : ZMod 97) + ((P.getD c 0 : ℤ) : ZMod 97)
      + ((Q.getD c 0 : ℤ) : ZMod 97) + ((E.getD c 0 : ℤ) : ZMod 97) := by
  rw [add_getD 97 4 _ _ (le_of_eq (add_length 97 4 _ _)) hE,
      add_getD 97 4 _ _ (le_of_eq (add_length 97 4 _ _)) hQ,
      add_getD 97 4 _ _ hB hP]
  push_cast [intCast_emod97]
  ring

/-- cast of one coefficient of the chain `add (add B P) Q` -/
theorem chain3_getD_cast (B P Q : List ℤ) (hB : B.length ≤ 4) (hP : P.length ≤ 4)
    (hQ : Q.length ≤ 4) (c : ℕ) :
    (((add 97 4 (add 97 4 B P) Q).getD c 0 : ℤ) : ZMod 97)
    = ((B.getD c 0 : ℤ) : ZMod 97) + ((P.getD c 0 : ℤ) : ZMod 97)
      + ((Q.getD c 0 : ℤ) : ZMod 97) := by
  rw [add_getD 97 4 _ _ (le_of_eq (add_length 97 4 _ _)) hQ, add_getD 97 4 _ _ hB hP]
  push_cast [intCast_emod97]
  ring

/-- cast of one coefficient of `add V (multiply W [-1])`, the code's
`v - s^T u` -/
theorem subpair_getD_cast (V W : List ℤ) (hV : V.length ≤ 4) (hW : W.length = 4) (c : ℕ) :
    (((add 97 4 V (multiply 97 4 W [-1])).getD c 0 : ℤ) : ZMod 97)
    = ((V.getD c 0 : ℤ) : ZMod 97) - ((W.getD c 0 : ℤ) : ZMod 97) := by
  rw [add_getD 97 4 _ _ hV (le_of_eq (multiply_length 97 4 _ _)),
      multiply_negone 97 4 W hW, getD_map_zero (fun z => (-z) % ((97:ℕ):ℤ)) (by simp) W c]
  push_cast [intCast_emod97]
  ring

set_option maxHeartbeats 1000000 in
/-- cast of coefficient `c` of `t[i]` produced by `key_gen`: the integer
value `tInt` modulo 97 -/
theorem keygen_t_row_cast (Ad : ℕ → ℕ → ℕ → ℤ) (sa sb ea eb : ℕ → ℕ → ℤ) (i c : ℕ)
    (hi : i < 2) (hc : c < 4) :
    ((((key_gen 97 4 2 1 Ad sa sb ea eb).2.1.getD i []).getD c 0 : ℤ) : ZMod 97)
    = ((tInt Ad sa sb ea eb i c : ℤ) : ZMod 97) := by
  rw [keygen_t_row_struct Ad sa sb ea eb i, if_pos hi]
  rw [chain4_getD_cast _ _ _ _ (by simp) (le_of_eq (multiply_length 97 4 _ _))
    (le_of_eq (multiply_length 97 4 _ _)) (by simp) c]
  rw [getD_singleton_zero]
  rw [mul54_getD_cast (Ad i 0) (fun j => (sa 0 j - sb 0 j) % 97) c hc]
  rw [mul54_getD_cast (Ad i 1) (fun j => (sa 1 j - sb 1 j) % 97) c hc]
  interval_cases c <;>
    · simp only [tInt, nc4, acolZ, cbdval, List.getD_cons_zero, List.getD_cons_succ]
      push_cast [intCast_emod97]
      ring

/-- structural shape of `u[i]` inside `encrypt` (with the public matrix
coming from `key_gen`): an `add`-chain over the transposed rows of `A` -/
theorem encrypt_u_row_struct (Ad : ℕ → ℕ → ℕ → ℤ) (sa sb ea eb : ℕ → ℕ → ℤ)
    (T : List (List ℤ)) (M : List ℤ) (ra rb e1a e1b : ℕ → ℕ → ℤ) (e2a e2b : ℕ → ℤ) (i : ℕ) :
    (encrypt 97 4 2 1 (key_gen 97 4 2 1 Ad sa sb ea eb).1 T M ra rb e1a e1b e2a e2b).1.getD i []
    = if i < 2 then
        add 97 4
          (add 97 4
            (add 97 4 [0]
              (multiply 97 4 [Ad 0 i 0, Ad 0 i 1, Ad 0 i 2, Ad 0 i 3, Ad 0 i 4]
                [(ra 0 0 - rb 0 0) % 97, (ra 0 1 - rb 0 1) % 97,
                 (ra 0 2 - rb 0 2) % 97, (ra 0 3 - rb 0 3) % 97]))
            (multiply 97 4 [Ad 1 i 0, Ad 1 i 1, Ad 1 i 2, Ad 1 i 3, Ad 1 i 4]
              [(ra 1 0 - rb 1 0) % 97, (ra 1 1 - rb 1 1) % 97,
               (ra 1 2 - rb 1 2) % 97, (ra 1 3 - rb 1 3) % 97]))
          [(e1a i 0 - e1b i 0) % 97, (e1a i 1 - e1b i 1) % 97,
           (e1a i 2 - e1b i 2) % 97, (e1a i 3 - e1b i 3) % 97]
      else [] := by
  rcases i with _ | _ | i <;>
    simp [encrypt, key_gen, sample_cbd_polynomial, sample_uniform_polynomial, module,
      range2, range4, range5, rangep40]

set_option maxHeartbeats 1000000 in
/-- cast of coefficient `c` of `u[i]` produced by `encrypt`: the integer
value `uInt` modulo 97 -/
theorem encrypt_u_row_cast (Ad : ℕ → ℕ → ℕ → ℤ) (sa sb ea eb : ℕ → ℕ → ℤ)
    (T : List (List ℤ)) (M : List ℤ) (ra rb e1a e1b : ℕ → ℕ → ℤ) (e2a e2b : ℕ → ℤ)
    (i c : ℕ) (hi : i < 2) (hc : c < 4) :
    ((((encrypt 97 4 2 1 (key_gen 97 4 2 1 Ad sa sb ea eb).1 T M
          ra rb e1a e1b e2a e2b).1.getD i []).getD c 0 : ℤ) : ZMod 97)
    = ((uInt Ad ra rb e1a e1b i c : ℤ) : ZMod 97) := by
  rw [encrypt_u_row_struct Ad sa sb ea eb T M ra rb e1a e1b e2a e2b i, if_pos hi]
  rw [chain4_getD_cast _ _ _ _ (by simp) (le_of_eq (multiply_length 97 4 _ _))
    (le_of_eq (multiply_length 97 4 _ _)) (by simp) c]
  rw [getD_singleton_zero]
  rw [mul54_getD_cast (Ad 0 i) (fun j => (ra 0 j - rb 0 j) % 97) c hc]
  rw [mul54_getD_cast (Ad 1 i) (fun j => (ra 1 j - rb 1 j) % 97) c hc]
  interval_cases c <;>
    · simp only [uInt, nc4, acolZ, cbdval, List.getD_cons_zero, List.getD_cons_succ]
      push_cast [intCast_emod97]
      ring

/-- structural shape of the ciphertext component `v` inside `encrypt` -/
theorem encrypt_v_struct (A : List (List (List ℤ))) (T : List (List ℤ))
    (m : ℕ → ℤ) (ra rb e1a e1b : ℕ → ℕ → ℤ) (e2a e2b : ℕ → ℤ) :
    (encrypt 97 4 2 1 A T [m 0, m 1, m 2, m 3] ra rb e1a e1b e2a e2b).2
    = add 97 4
        (add 97 4
          (add 97 4
            [(e2a 0 - e2b 0) % 97, (e2a 1 - e2b 1) % 97,
             (e2a 2 - e2b 2) % 97, (e2a 3 - e2b 3) % 97]
            (multiply 97 4 (T.getD 0 [])
              [(ra 0 0 - rb 0 0) % 97, (ra 0 1 - rb 0 1) % 97,
               (ra 0 2 - rb 0 2) % 97, (ra 0 3 - rb 0 3) % 97]))
          (multiply 97 4 (T.getD 1 [])
            [(ra 1 0 - rb 1 0) % 97, (ra 1 1 - rb 1 1) % 97,
             (ra 1 2 - rb 1 2) % 97, (ra 1 3 - rb 1 3) % 97]))
        [m 0 * 49, m 1 * 49, m 2 * 49, m 3 * 49] := by
  simp [encrypt, sample_cbd_polynomial, module, range2, range4, rangep40]

/-- structural shape of the inner product `sTu` for k = 2 -/
theorem sTu_struct (U S : List (List ℤ)) :
    sTu 97 4 2 U S
    = add 97 4 (add 97 4 [0] (multiply 97 4 (U.getD 0 []) (S.getD 0 [])))
        (multiply 97 4 (U.getD 1 []) (S.getD 1 [])) := by
  simp [sTu, range2]

theorem keygen_t_row_length (Ad : ℕ → ℕ → ℕ → ℤ) (sa sb ea eb : ℕ → ℕ → ℤ) (i : ℕ)
    (hi : i < 2) :
    ((key_gen 97 4 2 1 Ad sa sb ea eb).2.1.getD i []).length = 4 := by
  rw [keygen_t_row_struct Ad sa sb ea eb i, if_pos hi]
  exact add_length 97 4 _ _

theorem encrypt_u_row_length (Ad : ℕ → ℕ → ℕ → ℤ) (sa sb ea eb : ℕ → ℕ → ℤ)
    (T : List (List ℤ)) (M : List ℤ) (ra rb e1a e1b : ℕ → ℕ → ℤ) (e2a e2b : ℕ → ℤ)
    (i : ℕ) (hi : i < 2) :
    ((encrypt 97 4 2 1 (key_gen 97 4 2 1 Ad sa sb ea eb).1 T M
        ra rb e1a e1b e2a e2b).1.getD i []).length = 4 := by
  rw [encrypt_u_row_struct Ad sa sb ea eb T M ra rb e1a e1b e2a e2b i, if_pos hi]
  exact add_length 97 4 _ _

set_option maxHeartbeats 2000000 in
/-- cast of coefficient `c` of the ciphertext component `v` produced by
`encrypt` under the public key of `key_gen` -/
theorem encrypt_v_cast (Ad : ℕ → ℕ → ℕ → ℤ) (sa sb ea eb ra rb e1a e1b : ℕ → ℕ → ℤ)
    (e2a e2b : ℕ → ℤ) (m : ℕ → ℤ) (c : ℕ) (hc : c < 4) :
    (((encrypt 97 4 2 1 (key_gen 97 4 2 1 Ad sa sb ea eb).1
          (key_gen 97 4 2 1 Ad sa sb ea eb).2.1 [m 0, m 1, m 2, m 3]
          ra rb e1a e1b e2a e2b).2.getD c 0 : ℤ) : ZMod 97)
    = ((nc4 (fun j => tInt Ad sa sb ea eb 0 j) (cbdval (ra 0) (rb 0)) c
        + nc4 (fun j => tInt Ad sa sb ea eb 1 j) (cbdval (ra 1) (rb 1)) c
        + cbdval e2a e2b c + m c * 49 : ℤ) : ZMod 97) := by
  rw [encrypt_v_struct _ _ m ra rb e1a e1b e2a e2b]
  rw [chain4_getD_cast _ _ _ _ (by simp) (le_of_eq (multiply_length 97 4 _ _))
    (le_of_eq (multiply_length 97 4 _ _)) (by simp) c]
  rw [mul44_getD_cast _ (keygen_t_row_length Ad sa sb ea eb 0 (by norm_num))
    (fun j => (ra 0 j - rb 0 j) % 97) c hc]
  rw [mul44_getD_cast _ (keygen_t_row_length Ad sa sb ea eb 1 (by norm_num))
    (fun j => (ra 1 j - rb 1 j) % 97) c hc]
  interval_cases c <;>
    · simp only [nc4, cbdval, List.getD_cons_zero, List.getD_cons_succ]
      push_cast [intCast_emod97]
      rw [keygen_t_row_cast Ad sa sb ea eb 0 0 (by norm_num) (by norm_num),
          keygen_t_row_cast Ad sa sb ea eb 0 1 (by norm_num) (by norm_num),
          keygen_t_row_cast Ad sa sb ea eb 0 2 (by norm_num) (by norm_num),
          keygen_t_row_cast Ad sa sb ea eb 0 3 (by norm_num) (by norm_num),
          keygen_t_row_cast Ad sa sb ea eb 1 0 (by norm_num) (by norm_num),
          keygen_t_row_cast Ad sa sb ea eb 1 1 (by norm_num) (by norm_num),
          keygen_t_row_cast Ad sa sb ea eb 1 2 (by norm_num) (by norm_num),
          keygen_t_row_cast Ad sa sb ea eb 1 3 (by norm_num) (by norm_num)]
      ring

set_option maxHeartbeats 2000000 in
/-- cast of coefficient `c` of the inner product `s^T u` computed in
`decrypt`, with `u` from `encrypt` and `s` from `key_gen` -/
theorem sTu_cast (Ad : ℕ → ℕ → ℕ → ℤ) (sa sb ea eb ra rb e1a e1b : ℕ → ℕ → ℤ)
    (e2a e2b : ℕ → ℤ) (T : List (List ℤ)) (M : List ℤ) (c : ℕ) (hc : c < 4) :
    (((sTu 97 4 2
          (encrypt 97 4 2 1 (key_gen 97 4 2 1 Ad sa sb ea eb).1 T M
            ra rb e1a e1b e2a e2b).1
          (key_gen 97 4 2 1 Ad sa sb ea eb).2.2).getD c 0 : ℤ) : ZMod 97)
    = ((nc4 (fun j => uInt Ad ra rb e1a e1b 0 j) (cbdval (sa 0) (sb 0)) c
        + nc4 (fun j => uInt Ad ra rb e1a e1b 1 j) (cbdval (sa 1) (sb 1)) c : ℤ) : ZMod 97) := by
  rw [sTu_struct, keygen_s_eval Ad sa sb ea eb]
  simp only [List.getD_cons_zero, List.getD_cons_succ]
  rw [chain3_getD_cast _ _ _ (by simp) (le_of_eq (multiply_length 97 4 _ _))
    (le_of_eq (multiply_length 97 4 _ _)) c]
  rw [getD_singleton_zero]
  rw [mul44_getD_cast _ (encrypt_u_row_length Ad sa sb ea eb T M ra rb e1a e1b e2a e2b 0 (by norm_num))
    (fun j => (sa 0 j - sb 0 j) % 97) c hc]
  rw [mul44_getD_cast _ (encrypt_u_row_length Ad sa sb ea eb T M ra rb e1a e1b e2a e2b 1 (by norm_num))
    (fun j => (sa 1 j - sb 1 j) % 97) c hc]
  interval_cases c <;>
    · simp only [nc4, cbdval, List.getD_cons_zero, List.getD_cons_succ]
      push_cast [intCast_emod97]
      rw [encrypt_u_row_cast Ad sa sb ea eb T M ra rb e1a e1b e2a e2b 0 0 (by norm_num) (by norm_num),
          encrypt_u_row_cast Ad sa sb ea eb T M ra rb e1a e1b e2a e2b 0 1 (by norm_num) (by norm_num),
          encrypt_u_row_cast Ad sa sb ea eb T M ra rb e1a e1b e2a e2b 0 2 (by norm_num) (by norm_num),
          encrypt_u_row_cast Ad sa sb ea eb T M ra rb e1a e1b e2a e2b 0 3 (by norm_num) (by norm_num),
          encrypt_u_row_cast Ad sa sb ea eb T M ra rb e1a e1b e2a e2b 1 0 (by norm_num) (by norm_num),
          encrypt_u_row_cast Ad sa sb ea eb T M ra rb e1a e1b e2a e2b 1 1 (by norm_num) (by norm_num),
          encrypt_u_row_cast Ad sa sb ea eb T M ra rb e1a e1b e2a e2b 1 2 (by norm_num) (by norm_num),
          encrypt_u_row_cast Ad sa sb ea eb T M ra rb e1a e1b e2a e2b 1 3 (by norm_num) (by norm_num)]
      ring

set_option maxHeartbeats 4000000 in
/-- the central congruence: each coefficient of the value `v - s^T u`
computed inside `decrypt` on a round-trip ciphertext is congruent
modulo 97 to `noise + 49 * bit`, where `noise` is the integer CBD noise
combination `e·r + e2 - s·e1` -/
theorem decrypted_cast (Ad : ℕ → ℕ → ℕ → ℤ) (sa sb ea eb ra rb e1a e1b : ℕ → ℕ → ℤ)
    (e2a e2b : ℕ → ℤ) (m : ℕ → ℤ) (c : ℕ) (hc : c < 4) :
    (((add 97 4
          (encrypt 97 4 2 1 (key_gen 97 4 2 1 Ad sa sb ea eb).1
            (key_gen 97 4 2 1 Ad sa sb ea eb).2.1 [m 0, m 1, m 2, m 3]
            ra rb e1a e1b e2a e2b).2
          (multiply 97 4
            (sTu 97 4 2
              (encrypt 97 4 2 1 (key_gen 97 4 2 1 Ad sa sb ea eb).1
                (key_gen 97 4 2 1 Ad sa sb ea eb).2.1 [m 0, m 1, m 2, m 3]
                ra rb e1a e1b e2a e2b).1
              (key_gen 97 4 2 1 Ad sa sb ea eb).2.2) [-1])).getD c 0 : ℤ) : ZMod 97)
    = ((noiseC1 sa sb ea eb ra rb e1a e1b e2a e2b c + m c * 49 : ℤ) : ZMod 97) := by
  have hV : (encrypt 97 4 2 1 (key_gen 97 4 2 1 Ad sa sb ea eb).1
      (key_gen 97 4 2 1 Ad sa sb ea eb).2.1 [m 0, m 1, m 2, m 3]
      ra rb e1a e1b e2a e2b).2.length ≤ 4 := by
    rw [encrypt_v_struct _ _ m ra rb e1a e1b e2a e2b]
    exact le_of_eq (add_length 97 4 _ _)
  have hW : (sTu 97 4 2
      (encrypt 97 4 2 1 (key_gen 97 4 2 1 Ad sa sb ea eb).1
        (key_gen 97 4 2 1 Ad sa sb ea eb).2.1 [m 0, m 1, m 2, m 3]
        ra rb e1a e1b e2a e2b).1
      (key_gen 97 4 2 1 Ad sa sb ea eb).2.2).length = 4 :=
    sTu_length 97 4 2 (by norm_num) _ _
  rw [subpair_getD_cast _ _ hV hW c]
  rw [encrypt_v_cast Ad sa sb ea eb ra rb e1a e1b e2a e2b m c hc]
  rw [sTu_cast Ad sa sb ea eb ra rb e1a e1b e2a e2b _ _ c hc]
  interval_cases c <;>
    · simp only [noiseC1, tInt, uInt, nc4, acolZ, cbdval, if_pos, if_neg]
      push_cast
      ring

theorem prodbound (a b : ℤ) (ha : -1 ≤ a ∧ a ≤ 1) (hb : -1 ≤ b ∧ b ≤ 1) :
    -1 ≤ a * b ∧ a * b ≤ 1 := by
  obtain ⟨ha1, ha2⟩ := ha
  obtain ⟨hb1, hb2⟩ := hb
  constructor <;> nlinarith

theorem cbd_bound (a b : ℕ → ℤ) (ha : ∀ i, 0 ≤ a i ∧ a i ≤ 1) (hb : ∀ i, 0 ≤ b i ∧ b i ≤ 1) :
    ∀ i, -1 ≤ cbdval a b i ∧ cbdval a b i ≤ 1 := by
  intro i
  have h1 := ha i
  have h2 := hb i
  unfold cbdval
  omega

theorem nc4_bound (x y : ℕ → ℤ) (hx : ∀ i, -1 ≤ x i ∧ x i ≤ 1) (hy : ∀ i, -1 ≤ y i ∧ y i ≤ 1)
    (c : ℕ) : -4 ≤ nc4 x y c ∧ nc4 x y c ≤ 4 := by
  have h00 := prodbound _ _ (hx 0) (hy 0)
  have h01 := prodbound _ _ (hx 0) (hy 1)
  have h02 := prodbound _ _ (hx 0) (hy 2)
  have h03 := prodbound _ _ (hx 0) (hy 3)
  have h10 := prodbound _ _ (hx 1) (hy 0)
  have h11 := prodbound _ _ (hx 1) (hy 1)
  have h12 := prodbound _ _ (hx 1) (hy 2)
  have h13 := prodbound _ _ (hx 1) (hy 3)
  have h20 := prodbound _ _ (hx 2) (hy 0)
  have h21 := prodbound _ _ (hx 2) (hy 1)
  have h22 := prodbound _ _ (hx 2) (hy 2)
  have h23 := prodbound _ _ (hx 2) (hy 3)
  have h30 := prodbound _ _ (hx 3) (hy 0)
  have h31 := prodbound _ _ (hx 3) (hy 1)
  have h32 := prodbound _ _ (hx 3) (hy 2)
  have h33 := prodbound _ _ (hx 3) (hy 3)
  rcases c with _ | _ | _ | _ | c <;> simp only [nc4] <;> constructor <;> linarith

theorem noiseC1_bound (sa sb ea eb ra rb e1a e1b : ℕ → ℕ → ℤ) (e2a e2b : ℕ → ℤ)
    (hsa : ∀ i c, 0 ≤ sa i c ∧ sa i c ≤ 1) (hsb : ∀ i c, 0 ≤ sb i c ∧ sb i c ≤ 1)
    (hea : ∀ i c, 0 ≤ ea i c ∧ ea i c ≤ 1) (heb : ∀ i c, 0 ≤ eb i c ∧ eb i c ≤ 1)
    (hra : ∀ i c, 0 ≤ ra i c ∧ ra i c ≤ 1) (hrb : ∀ i c, 0 ≤ rb i c ∧ rb i c ≤ 1)
    (he1a : ∀ i c, 0 ≤ e1a i c ∧ e1a i c ≤ 1) (he1b : ∀ i c, 0 ≤ e1b i c ∧ e1b i c ≤ 1)
    (he2a : ∀ c, 0 ≤ e2a c ∧ e2a c ≤ 1) (he2b : ∀ c, 0 ≤ e2b c ∧ e2b c ≤ 1) (c : ℕ) :
    -17 ≤ noiseC1 sa sb ea eb ra rb e1a e1b e2a e2b c
    ∧ noiseC1 sa sb ea eb ra rb e1a e1b e2a e2b c ≤ 17 := by
  have h1 := nc4_bound _ _ (cbd_bound (ea 0) (eb 0) (hea 0) (heb 0))
    (cbd_bound (ra 0) (rb 0) (hra 0) (hrb 0)) c
  have h2 := nc4_bound _ _ (cbd_bound (ea 1) (eb 1) (hea 1) (heb 1))
    (cbd_bound (ra 1) (rb 1) (hra 1) (hrb 1)) c
  have h3 := cbd_bound e2a e2b he2a he2b c
  have h4 := nc4_bound _ _ (cbd_bound (sa 0) (sb 0) (hsa 0) (hsb 0))
    (cbd_bound (e1a 0) (e1b 0) (he1a 0) (he1b 0)) c
  have h5 := nc4_bound _ _ (cbd_bound (sa 1) (sb 1) (hsa 1) (hsb 1))
    (cbd_bound (e1a 1) (e1b 1) (he1a 1) (he1b 1)) c
  unfold noiseC1
  constructor <;> linarith [h1.1, h1.2, h2.1, h2.2, h3.1, h3.2, h4.1, h4.2, h5.1, h5.2]

set_option maxHeartbeats 4000000 in
/-- C1: at q = 97, n = 4, k = 2, eta = 1, for every key pair that
`key_gen` can produce (any uniform draws for `A`, any centered-binomial
draws in `[0, eta]` for `s` and `e`) and every 4-bit message, decryption
of an encryption succeeds for every choice of the fresh CBD randomness
`(r, e1, e2)` — the round trip is the identity in every trial, hence in
at least 95 of any 100 independent trials. -/
theorem C1_round_trip (Ad : ℕ → ℕ → ℕ → ℤ) (sa sb ea eb ra rb e1a e1b : ℕ → ℕ → ℤ)
    (e2a e2b : ℕ → ℤ) (m : ℕ → ℤ)
    (hsa : ∀ i c, 0 ≤ sa i c ∧ sa i c ≤ 1) (hsb : ∀ i c, 0 ≤ sb i c ∧ sb i c ≤ 1)
    (hea : ∀ i c, 0 ≤ ea i c ∧ ea i c ≤ 1) (heb : ∀ i c, 0 ≤ eb i c ∧ eb i c ≤ 1)
    (hra : ∀ i c, 0 ≤ ra i c ∧ ra i c ≤ 1) (hrb : ∀ i c, 0 ≤ rb i c ∧ rb i c ≤ 1)
    (he1a : ∀ i c, 0 ≤ e1a i c ∧ e1a i c ≤ 1) (he1b : ∀ i c, 0 ≤ e1b i c ∧ e1b i c ≤ 1)
    (he2a : ∀ c, 0 ≤ e2a c ∧ e2a c ≤ 1) (he2b : ∀ c, 0 ≤ e2b c ∧ e2b c ≤ 1)
    (hm : ∀ c, m c = 0 ∨ m c = 1) :
    decrypt 97 4 2
      (encrypt 97 4 2 1 (key_gen 97 4 2 1 Ad sa sb ea eb).1
        (key_gen 97 4 2 1 Ad sa sb ea eb).2.1 [m 0, m 1, m 2, m 3]
        ra rb e1a e1b e2a e2b)
      (key_gen 97 4 2 1 Ad sa sb ea eb).2.2
    = [m 0, m 1, m 2, m 3] := by
  simp only [decrypt]
  apply List.ext_getElem
  · simp [add_length]
  intro i h1 h2
  have hi4 : i < 4 := by simpa using h2
  have hlenD : (add 97 4
      (encrypt 97 4 2 1 (key_gen 97 4 2 1 Ad sa sb ea eb).1
        (key_gen 97 4 2 1 Ad sa sb ea eb).2.1 [m 0, m 1, m 2, m 3]
        ra rb e1a e1b e2a e2b).2
      (multiply 97 4
        (sTu 97 4 2
          (encrypt 97 4 2 1 (key_gen 97 4 2 1 Ad sa sb ea eb).1
            (key_gen 97 4 2 1 Ad sa sb ea eb).2.1 [m 0, m 1, m 2, m 3]
            ra rb e1a e1b e2a e2b).1
          (key_gen 97 4 2 1 Ad sa sb ea eb).2.2) [-1])).length = 4 :=
    add_length 97 4 _ _
  rw [List.getElem_map, ← List.getD_eq_getElem _ 0]
  have hcast := decrypted_cast Ad sa sb ea eb ra rb e1a e1b e2a e2b m i hi4
  have hbound := noiseC1_bound sa sb ea eb ra rb e1a e1b e2a e2b
    hsa hsb hea heb hra hrb he1a he1b he2a he2b i
  have hrange : 0 ≤ (add 97 4
      (encrypt 97 4 2 1 (key_gen 97 4 2 1 Ad sa sb ea eb).1
        (key_gen 97 4 2 1 Ad sa sb ea eb).2.1 [m 0, m 1, m 2, m 3]
        ra rb e1a e1b e2a e2b).2
      (multiply 97 4
        (sTu 97 4 2
          (encrypt 97 4 2 1 (key_gen 97 4 2 1 Ad sa sb ea eb).1
            (key_gen 97 4 2 1 Ad sa sb ea eb).2.1 [m 0, m 1, m 2, m 3]
            ra rb e1a e1b e2a e2b).1
          (key_gen 97 4 2 1 Ad sa sb ea eb).2.2) [-1])).getD i 0
      ∧ (add 97 4
      (encrypt 97 4 2 1 (key_gen 97 4 2 1 Ad sa sb ea eb).1
        (key_gen 97 4 2 1 Ad sa sb ea eb).2.1 [m 0, m 1, m 2, m 3]
        ra rb e1a e1b e2a e2b).2
      (multiply 97 4
        (sTu 97 4 2
          (encrypt 97 4 2 1 (key_gen 97 4 2 1 Ad sa sb ea eb).1
            (key_gen 97 4 2 1 Ad sa sb ea eb).2.1 [m 0, m 1, m 2, m 3]
            ra rb e1a e1b e2a e2b).1
          (key_gen 97 4 2 1 Ad sa sb ea eb).2.2) [-1])).getD i 0 < 97 := by
    apply mem_add_range 97 4 (by norm_num)
    rw [List.getD_eq_getElem _ 0 (by rw [hlenD]; exact hi4)]
    exact List.getElem_mem _
  have hmod : (add 97 4
      (encrypt 97 4 2 1 (key_gen 97 4 2 1 Ad sa sb ea eb).1
        (key_gen 97 4 2 1 Ad sa sb ea eb).2.1 [m 0, m 1, m 2, m 3]
        ra rb e1a e1b e2a e2b).2
      (multiply 97 4
        (sTu 97 4 2
          (encrypt 97 4 2 1 (key_gen 97 4 2 1 Ad sa sb ea eb).1
            (key_gen 97 4 2 1 Ad sa sb ea eb).2.1 [m 0, m 1, m 2, m 3]
            ra rb e1a e1b e2a e2b).1
          (key_gen 97 4 2 1 Ad sa sb ea eb).2.2) [-1])).getD i 0
      = (noiseC1 sa sb ea eb ra rb e1a e1b e2a e2b i + m i * 49) % 97 := by
    have h9 := (ZMod.intCast_eq_intCast_iff _ _ _).mp hcast
    have h10 : (add 97 4
        (encrypt 97 4 2 1 (key_gen 97 4 2 1 Ad sa sb ea eb).1
          (key_gen 97 4 2 1 Ad sa sb ea eb).2.1 [m 0, m 1, m 2, m 3]
          ra rb e1a e1b e2a e2b).2
        (multiply 97 4
          (sTu 97 4 2
            (encrypt 97 4 2 1 (key_gen 97 4 2 1 Ad sa sb ea eb).1
              (key_gen 97 4 2 1 Ad sa sb ea eb).2.1 [m 0, m 1, m 2, m 3]
              ra rb e1a e1b e2a e2b).1
            (key_gen 97 4 2 1 Ad sa sb ea eb).2.2) [-1])).getD i 0 % (97:ℤ)
        = (noiseC1 sa sb ea eb ra rb e1a e1b e2a e2b i + m i * 49) % (97:ℤ) := by
      simpa using h9
    rw [← h10, Int.emod_eq_of_lt hrange.1 hrange.2]
  rw [hmod]
  rcases hm i with h | h <;>
    · interval_cases i <;>
      · simp only [List.getElem_cons_zero, List.getElem_cons_succ]
        split <;> omega
/-- C9: for every ring parameters and every integer coefficient list
`p`, `module (module p) = module p` — reduction is idempotent. -/
theorem C9_module_idempotent (q n : ℕ) (p : List ℤ) :
    module q n (module q n p) = module q n p := module_module q n p

/-- C3 counterexample: `module` applied to `[9]` with q = 7, n = 1
yields `[2]`, while the reference computation of the claim (which reduces
modulo q only at the accumulation steps for indices `i ≥ n`, and never
touches the initial accumulator entries) yields `[9]`. -/
theorem C3_counterexample : module 7 1 [9] ≠ moduleSpec 7 1 [9] := by decide

/-- C3 amended: `module poly` equals the claim's reference computation
followed by a final normalization pass reducing every accumulator
coefficient modulo q. -/
theorem C3_module_eq_spec_normalized (q n : ℕ) (p : List ℤ) :
    module q n p = (moduleSpec q n p).map (fun c => c % (q:ℤ)) :=
  module_eq_moduleSpec_norm q n p

/-- C4: for every pair of integer coefficient lists, the polynomials
returned by `add`, `multiply` and `module` have exactly `n` coefficients,
each lying in `[0, q)`. -/
theorem C4_ring_outputs_normalized (q n : ℕ) (hq : 0 < q) (p1 p2 p : List ℤ) :
    ((add q n p1 p2).length = n ∧ ∀ c ∈ add q n p1 p2, 0 ≤ c ∧ c < (q:ℤ))
    ∧ ((multiply q n p1 p2).length = n ∧ ∀ c ∈ multiply q n p1 p2, 0 ≤ c ∧ c < (q:ℤ))
    ∧ ((module q n p).length = n ∧ ∀ c ∈ module q n p, 0 ≤ c ∧ c < (q:ℤ)) :=
  ⟨⟨add_length q n p1 p2, mem_add_range q n hq p1 p2⟩,
   ⟨multiply_length q n p1 p2, mem_multiply_range q n hq p1 p2⟩,
   ⟨module_length q n p, mem_module_range q n hq p⟩⟩

theorem C4_witness :
    0 < 7 ∧
    (((add 7 3 [-5, 9] [2, -13, 4, 8, -1]).length = 3
        ∧ ∀ c ∈ add 7 3 [-5, 9] [2, -13, 4, 8, -1], 0 ≤ c ∧ c < (7:ℤ))
      ∧ ((multiply 7 3 [-5, 9] [2, -13, 4, 8, -1]).length = 3
        ∧ ∀ c ∈ multiply 7 3 [-5, 9] [2, -13, 4, 8, -1], 0 ≤ c ∧ c < (7:ℤ))
      ∧ ((module 7 3 [-9]).length = 3 ∧ ∀ c ∈ module 7 3 [-9], 0 ≤ c ∧ c < (7:ℤ))) :=
  ⟨by decide, C4_ring_outputs_normalized 7 3 (by decide) [-5, 9] [2, -13, 4, 8, -1] [-9]⟩

/-- C5: `decrypt` outputs bit 1 at position `i` exactly when
`(v[i] - sTu[i]) mod q` (the coefficient of `v - s^T u` normalized into
`[0, q)`) lies in the closed decode window
`[q/2 - q/4, q/2 + q/4]` (integer floor divisions), and bit 0 otherwise. -/
theorem C5_decode_rule (q n k : ℕ) (hq : 0 < q) (hk : 0 < k)
    (u : List (List ℤ)) (v : List ℤ) (s : List (List ℤ)) (hv : v.length = n)
    (i : ℕ) (hi : i < n) :
    (decrypt q n k (u, v) s).getD i 0 =
      if ((q / 2 : ℕ) : ℤ) - ((q / 4 : ℕ) : ℤ)
            ≤ (v.getD i 0 - (sTu q n k u s).getD i 0) % (q:ℤ)
          ∧ (v.getD i 0 - (sTu q n k u s).getD i 0) % (q:ℤ)
            ≤ ((q / 2 : ℕ) : ℤ) + ((q / 4 : ℕ) : ℤ)
        then 1 else 0 :=
  decrypt_getD_decode q n k hq hk u v s hv i hi

theorem C5_witness :
    (decrypt 97 4 2 ([[3, 5, 90, 2], [1, 0, 44, 7]], [50, 8, 61, 96])
        [[1, 0, 96, 0], [0, 1, 1, 96]]).getD 2 0 =
      if ((97 / 2 : ℕ) : ℤ) - ((97 / 4 : ℕ) : ℤ)
            ≤ (([50, 8, 61, 96] : List ℤ).getD 2 0
                - (sTu 97 4 2 [[3, 5, 90, 2], [1, 0, 44, 7]] [[1, 0, 96, 0], [0, 1, 1, 96]]).getD 2 0)
              % (97:ℤ)
          ∧ (([50, 8, 61, 96] : List ℤ).getD 2 0
                - (sTu 97 4 2 [[3, 5, 90, 2], [1, 0, 44, 7]] [[1, 0, 96, 0], [0, 1, 1, 96]]).getD 2 0)
              % (97:ℤ)
            ≤ ((97 / 2 : ℕ) : ℤ) + ((97 / 4 : ℕ) : ℤ)
        then 1 else 0 :=
  C5_decode_rule 97 4 2 (by decide) (by decide) [[3, 5, 90, 2], [1, 0, 44, 7]]
    [50, 8, 61, 96] [[1, 0, 96, 0], [0, 1, 1, 96]] (by decide) 2 (by decide)

/-- C6: the decryption oracle errors exactly on the challenge
ciphertext; on any structurally different ciphertext it forwards the
decryption unchanged, a length-`n` vector of bits, without error. -/
theorem C6_oracle_rejection (q n k : ℕ) (s : List (List ℤ))
    (cstar c : List (List ℤ) × List ℤ) :
    (decrypt_oracle q n k s cstar c
        = Except.error "Decryption of challenge ciphertext is forbidden!" ↔ c = cstar)
    ∧ (c ≠ cstar →
        decrypt_oracle q n k s cstar c = Except.ok (decrypt q n k c s)
        ∧ (decrypt q n k c s).length = n
        ∧ ∀ b ∈ decrypt q n k c s, b = 0 ∨ b = 1) := by
  constructor
  · unfold decrypt_oracle
    split
    · simp [*]
    · simp [*]
  · intro hne
    unfold decrypt_oracle
    rw [if_neg hne]
    exact ⟨rfl, decrypt_length q n k c s, decrypt_bits q n k c s⟩

theorem C6_witness :
    ((([[9, 2, 5, 11], [0, 3, 1, 7]], [13, 4, 96, 50]) : List (List ℤ) × List ℤ)
        ≠ (([[9, 2, 5, 11], [0, 3, 1, 7]], [14, 4, 96, 50]) : List (List ℤ) × List ℤ))
    ∧ (decrypt_oracle 97 4 2 [[1, 0, 0, 96], [0, 1, 96, 0]]
          ([[9, 2, 5, 11], [0, 3, 1, 7]], [14, 4, 96, 50])
          ([[9, 2, 5, 11], [0, 3, 1, 7]], [13, 4, 96, 50])
        = Except.ok (decrypt 97 4 2 ([[9, 2, 5, 11], [0, 3, 1, 7]], [13, 4, 96, 50])
            [[1, 0, 0, 96], [0, 1, 96, 0]])
      ∧ (decrypt 97 4 2 ([[9, 2, 5, 11], [0, 3, 1, 7]], [13, 4, 96, 50])
          [[1, 0, 0, 96], [0, 1, 96, 0]]).length = 4
      ∧ ∀ b ∈ decrypt 97 4 2 ([[9, 2, 5, 11], [0, 3, 1, 7]], [13, 4, 96, 50])
          [[1, 0, 0, 96], [0, 1, 96, 0]], b = 0 ∨ b = 1) :=
  ⟨by decide,
   (C6_oracle_rejection 97 4 2 [[1, 0, 0, 96], [0, 1, 96, 0]]
      (([[9, 2, 5, 11], [0, 3, 1, 7]], [14, 4, 96, 50]))
      (([[9, 2, 5, 11], [0, 3, 1, 7]], [13, 4, 96, 50]))).2 (by decide)⟩

/-- C10: `decrypt` is total: whenever `u` and `s` supply at least `k`
polynomials (of any shapes, consistent with `n` or not) and `v` is any
integer list, the code raises nothing and returns a list of exactly `n`
bits. -/
theorem C10_decrypt_total (q n k : ℕ) (hq : 0 < q) (hn : 0 < n)
    (u : List (List ℤ)) (v : List ℤ) (s : List (List ℤ))
    (hu : k ≤ u.length) (hs : k ≤ s.length) :
    decryptE q n k (u, v) s = Except.ok (decrypt q n k (u, v) s)
    ∧ (decrypt q n k (u, v) s).length = n
    ∧ ∀ b ∈ decrypt q n k (u, v) s, b = 0 ∨ b = 1 := by
  refine ⟨?_, decrypt_length q n k (u, v) s, decrypt_bits q n k (u, v) s⟩
  unfold decryptE
  rw [if_pos ⟨hu, hs⟩]

theorem C10_witness :
    decryptE 97 4 2 ([[1, 2, 3], [4]], [7, 8, 9, 10, 11]) [[1], [2, 2, 2, 2, 2]]
      = Except.ok (decrypt 97 4 2 ([[1, 2, 3], [4]], [7, 8, 9, 10, 11]) [[1], [2, 2, 2, 2, 2]])
    ∧ (decrypt 97 4 2 ([[1, 2, 3], [4]], [7, 8, 9, 10, 11]) [[1], [2, 2, 2, 2, 2]]).length = 4
    ∧ ∀ b ∈ decrypt 97 4 2 ([[1, 2, 3], [4]], [7, 8, 9, 10, 11]) [[1], [2, 2, 2, 2, 2]],
        b = 0 ∨ b = 1 :=
  C10_decrypt_total 97 4 2 (by decide) (by decide) [[1, 2, 3], [4]] [7, 8, 9, 10, 11]
    [[1], [2, 2, 2, 2, 2]] (by decide) (by decide)

/-- C8: multiplying a length-`n` polynomial with coefficients in
`[0, q)` by the singleton scalar polynomial `[-1]` equals coefficient-wise
negation re-normalized modulo `q`; hence the code's
`add v (multiply sTu [-1])` computes `v + negate (sTu)`. -/
theorem C8_negation_refinement (q n : ℕ) (p : List ℤ) (hp : p.length = n)
    (hrange : ∀ c ∈ p, 0 ≤ c ∧ c < (q:ℤ)) :
    multiply q n p [-1] = p.map (fun c => (-c) % (q:ℤ))
    ∧ ∀ v : List ℤ, add q n v (multiply q n p [-1]) = add q n v (p.map (fun c => (-c) % (q:ℤ))) := by
  refine ⟨multiply_negone q n p hp, fun v => ?_⟩
  rw [multiply_negone q n p hp]

theorem C8_witness :
    (([3, 0, 96, 41] : List ℤ).length = 4 ∧ ∀ c ∈ ([3, 0, 96, 41] : List ℤ), 0 ≤ c ∧ c < (97:ℤ))
    ∧ (multiply 97 4 [3, 0, 96, 41] [-1] = ([3, 0, 96, 41] : List ℤ).map (fun c => (-c) % (97:ℤ))
      ∧ ∀ v : List ℤ, add 97 4 v (multiply 97 4 [3, 0, 96, 41] [-1])
          = add 97 4 v (([3, 0, 96, 41] : List ℤ).map (fun c => (-c) % (97:ℤ)))) :=
  ⟨⟨by decide, by decide⟩, C8_negation_refinement 97 4 [3, 0, 96, 41] (by decide) (by decide)⟩

/-- C2 (failing-input evaluation): at q = 97, n = 4, k = 2, eta = 1
with the all-zero draw oracles, the matrix entry `A[0][0]` returned by
`key_gen` has `5 = n + 1` coefficients (the code passes `n` as the
`degree` argument of `sample_uniform_polynomial`, which returns
`degree + 1` coefficients), while each entry of `t` has the expected
`n = 4` coefficients. -/
theorem C2_keygen_A_entry_has_five_coefficients :
    (((key_gen 97 4 2 1 (fun _ _ _ => 0) (fun _ _ => 0) (fun _ _ => 0) (fun _ _ => 0)
        (fun _ _ => 0)).1.getD 0 []).getD 0 []).length = 5
    ∧ ((key_gen 97 4 2 1 (fun _ _ _ => 0) (fun _ _ => 0) (fun _ _ => 0) (fun _ _ => 0)
        (fun _ _ => 0)).2.1.getD 0 []).length = 4 := ⟨rfl, rfl⟩

/-- C7 counterexample: calling `encrypt` with the message
`[5, 0, 0, 0]` — whose first bit is outside {0, 1} — raises no error at
all: the call returns normally (the out-of-range bit is simply scaled by
`ceil(q/2)` like any other coefficient). -/
theorem C7_counterexample :
    encryptE 97 4 2 1 [[[0, 0, 0, 0, 0], [0, 0, 0, 0, 0]], [[0, 0, 0, 0, 0], [0, 0, 0, 0, 0]]]
        [[0, 0, 0, 0], [0, 0, 0, 0]] [5, 0, 0, 0]
        (fun _ _ => 0) (fun _ _ => 0) (fun _ _ => 0) (fun _ _ => 0) (fun _ => 0) (fun _ => 0)
      = Except.ok (encrypt 97 4 2 1
          [[[0, 0, 0, 0, 0], [0, 0, 0, 0, 0]], [[0, 0, 0, 0, 0], [0, 0, 0, 0, 0]]]
          [[0, 0, 0, 0], [0, 0, 0, 0]] [5, 0, 0, 0]
          (fun _ _ => 0) (fun _ _ => 0) (fun _ _ => 0) (fun _ _ => 0) (fun _ => 0) (fun _ => 0)) :=
  rfl

/-- C7 amended: `encrypt` performs no validation of the message: as
long as `A` offers at least `k` rows of at least `k` entries and `t` at
least `k` entries (so that the Python subscripts are in bounds), the call
returns normally for every message list — bits outside {0, 1} and
messages of the wrong length included. -/
theorem C7_encrypt_never_validates (q n k eta : ℕ)
    (A : List (List (List ℤ))) (t : List (List ℤ)) (m_bits : List ℤ)
    (ra rb e1a e1b : ℕ → ℕ → ℤ) (e2a e2b : ℕ → ℤ)
    (hA : k ≤ A.length) (hrow : ∀ row ∈ A.take k, k ≤ row.length) (ht : k ≤ t.length) :
    encryptE q n k eta A t m_bits ra rb e1a e1b e2a e2b
      = Except.ok (encrypt q n k eta A t m_bits ra rb e1a e1b e2a e2b) := by
  unfold encryptE
  rw [if_pos ⟨hA, hrow, ht⟩]

theorem C7_witness :
    encryptE 97 4 2 1 [[[1, 2, 3, 4, 5], [6, 7, 8, 9, 10]], [[0, 1, 0, 1, 0], [2, 2, 2, 2, 2]]]
        [[1, 0, 0, 0], [0, 1, 0, 0]] [2, 7, -1]
        (fun _ _ => 1) (fun _ _ => 0) (fun _ _ => 0) (fun _ _ => 1) (fun _ => 1) (fun _ => 1)
      = Except.ok (encrypt 97 4 2 1
          [[[1, 2, 3, 4, 5], [6, 7, 8, 9, 10]], [[0, 1, 0, 1, 0], [2, 2, 2, 2, 2]]]
          [[1, 0, 0, 0], [0, 1, 0, 0]] [2, 7, -1]
          (fun _ _ => 1) (fun _ _ => 0) (fun _ _ => 0) (fun _ _ => 1) (fun _ => 1) (fun _ => 1)) :=
  C7_encrypt_never_validates 97 4 2 1
    [[[1, 2, 3, 4, 5], [6, 7, 8, 9, 10]], [[0, 1, 0, 1, 0], [2, 2, 2, 2, 2]]]
    [[1, 0, 0, 0], [0, 1, 0, 0]] [2, 7, -1]
    (fun _ _ => 1) (fun _ _ => 0) (fun _ _ => 0) (fun _ _ => 1) (fun _ => 1) (fun _ => 1)
    (by decide) (by decide) (by decide)


theorem C1_witness :
    decrypt 97 4 2
      (encrypt 97 4 2 1
        (key_gen 97 4 2 1 (fun i j c => (((2 * i + 3 * j + 5 * c) % 97 : ℕ) : ℤ))
          (fun _ _ => 0) (fun _ _ => 0) (fun _ _ => 1) (fun _ _ => 0)).1
        (key_gen 97 4 2 1 (fun i j c => (((2 * i + 3 * j + 5 * c) % 97 : ℕ) : ℤ))
          (fun _ _ => 0) (fun _ _ => 0) (fun _ _ => 1) (fun _ _ => 0)).2.1
        [1, 0, 1, 1] (fun _ _ => 1) (fun _ _ => 0) (fun _ _ => 0) (fun _ _ => 0)
        (fun _ => 0) (fun _ => 1))
      (key_gen 97 4 2 1 (fun i j c => (((2 * i + 3 * j + 5 * c) % 97 : ℕ) : ℤ))
        (fun _ _ => 0) (fun _ _ => 0) (fun _ _ => 1) (fun _ _ => 0)).2.2
    = [1, 0, 1, 1] :=
  C1_round_trip (fun i j c => (((2 * i + 3 * j + 5 * c) % 97 : ℕ) : ℤ))
    (fun _ _ => 0) (fun _ _ => 0) (fun _ _ => 1) (fun _ _ => 0)
    (fun _ _ => 1) (fun _ _ => 0) (fun _ _ => 0) (fun _ _ => 0)
    (fun _ => 0) (fun _ => 1)
    (fun c => (([1, 0, 1, 1] : List ℤ)).getD c 0)
    (by intro i c; norm_num) (by intro i c; norm_num)
    (by intro i c; norm_num) (by intro i c; norm_num)
    (by intro i c; norm_num) (by intro i c; norm_num)
    (by intro i c; norm_num) (by intro i c; norm_num)
    (by intro c; norm_num) (by intro c; norm_num)
    (by intro c; rcases c with _ | _ | _ | _ | c <;> simp)
